import Mathlib

/-!
Verification development for the better-auth-capacitor cookie-jar core
(source: src/client.ts).

The persisted cookie jar is a JSON string.  We shallowly embed the JSON
layer: `JVal` models a parsed JavaScript JSON value, and `JStr` models a
string holding either valid JSON (represented by its parse result) or
malformed text on which JSON.parse throws.  Association lists model
JavaScript object fields in insertion order; `objSet` is the semantics of
assigning a property (update in place keeps the original position, a new
key is appended), which is also the semantics of Map.set used by the
cookie-header parse.

Dates: the source stores timestamps through Date.toISOString and reads
them back with new Date(string).  We model the ISO rendering of the
timestamp t (milliseconds since the epoch) by the injective decimal
rendering `isoEncode t` together with its parser `isoDecode`; the literal
ISO-8601 text is not reproduced, only the properties the code relies on
(injectivity, non-emptiness, and round-tripping back to the timestamp).
Strings that are not such a rendering are modelled as parsing to no date
(new Date gives an invalid date on them in the flows exercised here; no
claim depends on non-canonical date strings).

parseSetCookieHeader, SECURE_COOKIE_PREFIX and stripSecureCookiePrefix
come from the external better-auth package.  The Set-Cookie header is
embedded at the attribute level: a header is the list of cookies it
parses to, each carrying its name, value, and optional max-age and
expires attributes (an expires attribute is represented by the timestamp
it denotes; headers whose expires attribute fails to parse as a date are
outside the model).  parseSetCookieHeader then builds the name-keyed map
with Map.set semantics.
-/

namespace BAC

/-- A JavaScript JSON value (the result of a successful JSON.parse). -/
inductive JVal where
  | jnull : JVal
  | jbool (b : Bool) : JVal
  | jnum (n : Int) : JVal
  | jstr (s : String) : JVal
  | jarr (elems : List JVal) : JVal
  | jobj (fields : List (String × JVal)) : JVal

mutual

/-- Structural boolean equality on JSON values. -/
def jvalBeq : JVal → JVal → Bool
  | .jnull, .jnull => true
  | .jbool a, .jbool b => a == b
  | .jnum a, .jnum b => a == b
  | .jstr a, .jstr b => a == b
  | .jarr a, .jarr b => jvalListBeq a b
  | .jobj a, .jobj b => jvalFieldsBeq a b
  | _, _ => false

/-- Elementwise equality on JSON value lists. -/
def jvalListBeq : List JVal → List JVal → Bool
  | [], [] => true
  | a :: as, b :: bs => jvalBeq a b && jvalListBeq as bs
  | _, _ => false

/-- Elementwise equality on JSON object field lists. -/
def jvalFieldsBeq : List (String × JVal) → List (String × JVal) → Bool
  | [], [] => true
  | (k, v) :: as, (k2, v2) :: bs => k == k2 && jvalBeq v v2 && jvalFieldsBeq as bs
  | _, _ => false

end

/-- A string in a cookie-jar position: either it parses as JSON to `v`, or
JSON.parse throws on it.  The empty string is malformed in this sense. -/
inductive JStr where
  | ofJson (v : JVal) : JStr
  | malformed : JStr

/-- JSON.parse, returning none where the source throws (and catches). -/
def jsonParse : JStr → Option JVal
  | .ofJson v => some v
  | .malformed => none

/-- JavaScript truthiness of a JSON value. -/
def truthy : JVal → Bool
  | .jnull => false
  | .jbool b => b
  | .jnum n => !(n = 0)
  | .jstr s => !(s = "")
  | .jarr _ => true
  | .jobj _ => true

/-- Truthiness of a possibly-undefined value (undefined is falsy). -/
def truthyOpt : Option JVal → Bool
  | none => false
  | some v => truthy v

/-- First-match association-list lookup (JavaScript property read on an
object; real objects never have duplicate keys). -/
def lookupKey {β : Type} (k : String) : List (String × β) → Option β
  | [] => none
  | (k', v) :: rest => if k' = k then some v else lookupKey k rest

/-- The keys of an association list, in order. -/
def keysOf {β : Type} (a : List (String × β)) : List String :=
  a.map Prod.fst

/-- JavaScript property assignment obj[k] = v (also Map.set): if the key
exists its value is replaced in place, otherwise the entry is appended.
(JavaScript objects never hold a key twice; on such duplicate-free lists
replacing the first occurrence is the assignment semantics.) -/
def objSet {β : Type} : List (String × β) → String → β → List (String × β)
  | [], k, v => [(k, v)]
  | (k0, v0) :: rest, k, v =>
    if k0 = k then (k, v) :: rest else (k0, v0) :: objSet rest k v

/-- Assign every pair of `l`, in order, into `acc` (the semantics of
copying properties one by one into an object being built). -/
def setAll {β : Type} : List (String × β) → List (String × β) → List (String × β)
  | acc, [] => acc
  | acc, (k, v) :: rest => setAll (objSet acc k v) rest

/-- The own enumerable entries of a JSON value, as produced by object
spread and Object.entries: an object yields its fields, a string its
index-to-character entries, an array its index-to-element entries, and
primitives yield nothing.  (Object.entries(null) throws in the source;
callers that reach it are modelled at their call sites.) -/
def spreadFields : JVal → List (String × JVal)
  | .jobj fs => fs
  | .jstr s => s.data.enum.map (fun p => (toString p.1, JVal.jstr (String.mk [p.2])))
  | .jarr es => es.enum.map (fun p => (toString p.1, p.2))
  | _ => []

/-- Strict (in)equality test on possibly-undefined values, as used by the
session diff (the source compares with !==; for the string-valued fields
exercised by the claims this coincides with structural equality). -/
def optValBeq : Option JVal → Option JVal → Bool
  | none, none => true
  | some a, some b => jvalBeq a b
  | _, _ => false

/-- The object literal spread-merge, as in the source line
toSetCookie = (spread prev, spread incoming): properties are assigned in
order into a fresh object. -/
def mergeFields (p i : List (String × JVal)) : List (String × JVal) :=
  setAll (setAll [] p) i

/-- Optional-chaining property read x?.[k] (undefined on a non-object). -/
def getFieldOpt (x : Option JVal) (k : String) : Option JVal :=
  match x with
  | some (.jobj fs) => lookupKey k fs
  | _ => none

/-- Decimal digit character of n (defined for n < 10). -/
def digitOfNat : Nat → Char
  | 0 => '0' | 1 => '1' | 2 => '2' | 3 => '3' | 4 => '4'
  | 5 => '5' | 6 => '6' | 7 => '7' | 8 => '8' | _ => '9'

/-- The digit denoted by a character, if any. -/
def charToDigit (c : Char) : Option Nat :=
  if c = '0' then some 0 else if c = '1' then some 1
  else if c = '2' then some 2 else if c = '3' then some 3
  else if c = '4' then some 4 else if c = '5' then some 5
  else if c = '6' then some 6 else if c = '7' then some 7
  else if c = '8' then some 8 else if c = '9' then some 9
  else none

/-- Big-endian decimal digits, with a fuel argument that keeps the
recursion structural (any fuel above the number works). -/
def natToCharsAux : Nat → Nat → List Char
  | 0, _ => []
  | fuel + 1, n =>
    if n < 10 then [digitOfNat n]
    else natToCharsAux fuel (n / 10) ++ [digitOfNat (n % 10)]

/-- Big-endian decimal digits of a natural number. -/
def natToChars (n : Nat) : List Char :=
  natToCharsAux (n + 1) n

/-- Fold decimal digit characters onto an accumulator; none on a
non-digit. -/
def charsToNatAux (acc : Nat) : List Char → Option Nat
  | [] => some acc
  | c :: rest =>
    match charToDigit c with
    | some d => charsToNatAux (acc * 10 + d) rest
    | none => none

/-- Parse a non-empty all-digit character list as a natural number. -/
def charsToNat (cs : List Char) : Option Nat :=
  match cs with
  | [] => none
  | _ => charsToNatAux 0 cs

/-- Model of Date.toISOString for the timestamp t (ms since epoch): an
injective decimal rendering standing in for the ISO-8601 text. -/
def isoEncode (t : Int) : String :=
  if t < 0 then String.mk ('-' :: natToChars t.natAbs)
  else String.mk (natToChars t.toNat)

/-- Model of new Date(s).getTime() on a stored expiry string: recovers
the timestamp from an `isoEncode` rendering, none (an invalid date) on
other strings. -/
def isoDecode (s : String) : Option Int :=
  match s.data with
  | [] => none
  | c :: rest =>
    if c = '-' then (charsToNat rest).map (fun n => -(Int.ofNat n))
    else (charsToNat (c :: rest)).map (fun n => Int.ofNat n)

/-- Model of new Date(x) for a JSON value x as used by the jar filter:
a string parses per `isoDecode`, a number is a millisecond timestamp;
other values give an invalid date in the flows exercised here. -/
def dateOfJVal : JVal → Option Int
  | .jstr s => isoDecode s
  | .jnum n => some n
  | _ => none

/-- Character-list prefix test (String.prototype.startsWith). -/
def strStartsWith (s p : String) : Bool :=
  p.data.isPrefixOf s.data

/-- Character-list suffix test (String.prototype.endsWith). -/
def strEndsWith (s p : String) : Bool :=
  p.data.isSuffixOf s.data

/-- Drop the first n characters of a string (String.prototype.slice(n)). -/
def strDrop (s : String) (n : Nat) : String :=
  String.mk (s.data.drop n)

/-- Substring containment (String.prototype.includes). -/
def strContainsAux (pat : List Char) : List Char → Bool
  | [] => pat.isPrefixOf []
  | c :: rest => pat.isPrefixOf (c :: rest) || strContainsAux pat rest

/-- s.includes(pat). -/
def strContains (s pat : String) : Bool :=
  strContainsAux pat.data s.data

mutual

/-- Rendering of a JSON value inside a larger string or inside an array
join, per JavaScript String coercion (null renders as the empty string
inside an array join). -/
def jsDisplayElem : JVal → String
  | .jnull => ""
  | .jbool b => cond b "true" "false"
  | .jnum n => toString n
  | .jstr s => s
  | .jobj _ => "[object Object]"
  | .jarr es => jsDisplayList es

/-- Array join with commas, as Array.prototype.toString. -/
def jsDisplayList : List JVal → String
  | [] => ""
  | [e] => jsDisplayElem e
  | e :: rest => jsDisplayElem e ++ "," ++ jsDisplayList rest

end

/-- Top-level String(x) coercion of a JSON value. -/
def jsDisplay : JVal → String
  | .jnull => "null"
  | v => jsDisplayElem v

/-- Template-literal rendering of a possibly-undefined value. -/
def jsDisplayOpt : Option JVal → String
  | none => "undefined"
  | some v => jsDisplay v

/-- Property read x[k] on a parsed JSON value (undefined where the value
has no such own property; a read on null throws in the source, but every
call site catches, which the call sites model). -/
def fieldAt (v : JVal) (k : String) : Option JVal :=
  lookupKey k (spreadFields v)

/-- x[k]?.value as used by the session diff and the OAuth-state lookup. -/
def fieldValueAt (v : JVal) (k : String) : Option JVal :=
  getFieldOpt (fieldAt v k) "value"

/-!
The functions of src/client.ts.  Asynchronous storage reads appear as
explicit parameters (the value the Preferences backend returned), and the
native-platform guard as a boolean parameter.
-/

/-- A cookie as parsed from a Set-Cookie header by the external
better-auth parseSetCookieHeader: its name, value, and optional max-age
(an integer number of seconds; a NaN max-age behaves like 0, both are
falsy) and expires attributes (represented by the timestamp the attribute
denotes; attributes that do not parse as a date are outside the model). -/
structure RawCookie where
  name : String
  value : String
  maxAge : Option Int
  expiresAttr : Option Int

/-- The name-keyed cookie map parseSetCookieHeader builds, with Map.set
semantics (a repeated name overwrites the value and keeps its original
position). -/
def parseMap (header : List RawCookie) : List (String × RawCookie) :=
  setAll [] (header.map (fun c => (c.name, c)))

/-- SECURE_COOKIE_PREFIX from the better-auth package. -/
def secureMarker : String := "__Secure-"

/-- stripSecureCookiePrefix from the better-auth package. -/
def stripSecure (nm : String) : String :=
  if strStartsWith nm secureMarker then strDrop nm 9 else nm

/-- Truthiness of an optional number (absent and 0 are falsy). -/
def numTruthy : Option Int → Bool
  | some m => !(m = 0)
  | none => false

/-- The expiry getSetCookie computes for one parsed cookie, lines 278-284:
maxAge if truthy gives now plus maxAge seconds, else the expires attribute
if present, else null. -/
def storedExpiry (now : Int) (c : RawCookie) : Option Int :=
  if numTruthy c.maxAge then c.maxAge.map (fun m => now + m * 1000)
  else
    match c.expiresAttr with
    | some t => some t
    | none => none

/-- The stored-cookie JSON object getSetCookie writes for one cookie:
value plus the ISO rendering of the expiry, or null. -/
def storedJVal (value : String) (e : Option Int) : JVal :=
  JVal.jobj [("value", JVal.jstr value),
    ("expires", match e with
      | some t => JVal.jstr (isoEncode t)
      | none => JVal.jnull)]

/-- The toSetCookie object built from the parsed header (lines 277-290):
one entry per parsed cookie name, in map order. -/
def incomingFields (now : Int) (header : List RawCookie) : List (String × JVal) :=
  (parseMap header).map (fun p => (p.1, storedJVal p.2.value (storedExpiry now p.2)))

/-- getSetCookie (lines 273-306).  A falsy (absent or empty) or malformed
previous jar is ignored; otherwise the previous parse result is spread
under the incoming entries, incoming winning per name. -/
def getSetCookie (now : Int) (header : List RawCookie) (prevCookie : Option JStr) : JStr :=
  let incoming := incomingFields now header
  match prevCookie with
  | none => JStr.ofJson (JVal.jobj incoming)
  | some s =>
    match jsonParse s with
    | none => JStr.ofJson (JVal.jobj incoming)
    | some v => JStr.ofJson (JVal.jobj (mergeFields (spreadFields v) incoming))

/-- The filter of getCookie line 322: keep the entry when its expires
field is falsy, or when it parses as a date at or after now (an invalid
date compares false).  (An entry whose value is null makes the source
throw at the property read; such entries never arise from getSetCookie
output and no claim exercises them.) -/
def keepEntry (now : Int) (p : String × JVal) : Bool :=
  !(truthyOpt (getFieldOpt (some p.2) "expires")) ||
    (match getFieldOpt (some p.2) "expires" with
     | some ev =>
       (match dateOfJVal ev with
        | some t => decide (now ≤ t)
        | none => false)
     | none => false)

/-- The rendering of getCookie line 323: name=value. -/
def renderEntry (p : String × JVal) : String :=
  p.1 ++ "=" ++ jsDisplayOpt (getFieldOpt (some p.2) "value")

/-- The validCookies list of getCookie (lines 321-323). -/
def validCookiePairs (now : Int) (v : JVal) : List String :=
  ((spreadFields v).filter (keepEntry now)).map renderEntry

/-- getCookie (lines 311-326): empty string on a malformed jar, else the
surviving entries joined by a semicolon and space.  (On the jar "null"
the source throws at Object.entries; no claim exercises that input.) -/
def getCookie (now : Int) (cookie : JStr) : String :=
  match jsonParse cookie with
  | none => ""
  | some v => String.intercalate "; " (validCookiePairs now v)

/-- The string-or-array-of-strings cookiePrefix option. -/
inductive StrOrList where
  | str (s : String)
  | list (l : List String)

/-- Array.isArray(cookiePrefix) ? cookiePrefix : [cookiePrefix]. -/
def toPrefixList : StrOrList → List String
  | .str s => [s]
  | .list l => l

/-- hasBetterAuthCookies (lines 332-357): some parsed cookie name, with
the secure marker stripped, either starts with a non-empty configured
classification string, or, for the empty classification string, ends with
session_token or session_data. -/
def hasBetterAuthCookies (header : List RawCookie) (cookiePre : StrOrList) : Bool :=
  (keysOf (parseMap header)).any (fun nm =>
    (toPrefixList cookiePre).any (fun p =>
      if !(p = "") then strStartsWith (stripSecure nm) p
      else ["session_token", "session_data"].any (fun suf => strEndsWith (stripSecure nm) suf)))

/-- A key the session diff considers session-relevant. -/
def isSessionKey (k : String) : Bool :=
  strContains k "session_token" || strContains k "session_data"

/-- Set-insertion dedup in first-insertion order. -/
def dedupKeys (l : List String) : List String :=
  l.foldl (fun acc k => if acc.contains k then acc else acc ++ [k]) []

/-- hasSessionCookieChanged (lines 362-393): true on an absent previous
jar or a parse failure on either jar (the parse of "null" later throws at
Object.keys, also caught, hence also true); otherwise true iff some
session-relevant key of either record has differing values. -/
def hasSessionCookieChanged (prevCookie : Option JStr) (newCookie : JStr) : Bool :=
  match prevCookie with
  | none => true
  | some p =>
    match jsonParse p, jsonParse newCookie with
    | some .jnull, some _ => true
    | some _, some .jnull => true
    | some pv, some nv =>
      let sessionKeys := dedupKeys
        (((keysOf (spreadFields pv)).filter isSessionKey)
          ++ ((keysOf (spreadFields nv)).filter isSessionKey))
      sessionKeys.any (fun k => !(optValBeq (fieldValueAt pv k) (fieldValueAt nv k)))
    | _, _ => true

/-- The secure-prefixed session-token entry name for one classification
string. -/
def secureTokenName (p : String) : String :=
  secureMarker ++ p ++ ".session_token"

/-- The plain session-token entry name. -/
def plainTokenName (p : String) : String :=
  p ++ ".session_token"

/-- The token extraction shared by getCapacitorAuthToken (lines 202-208)
and the request hook (lines 634-640): prefer the secure-prefixed entry
name when that entry is truthy, fall back to the plain name, and return
its value when truthy, else null. -/
def bearerTokenOf (cookieData : JVal) (p : String) : Option JVal :=
  let tokenKey :=
    if truthyOpt (fieldAt cookieData (secureTokenName p)) then secureTokenName p
    else plainTokenName p
  let v := getFieldOpt (fieldAt cookieData tokenKey) "value"
  if truthyOpt v then v else none

/-- getCapacitorAuthToken (lines 187-213), with the platform check and the
stored jar read made explicit: null off the native platform, on an absent
or empty jar, on a parse failure, and on a missing or falsy token value. -/
def getCapacitorAuthToken (native : Bool) (storedCookie : Option JStr) (cookiePre : String) :
    Option JVal :=
  if !native then none
  else
    match storedCookie with
    | none => none
    | some s =>
      match jsonParse s with
      | none => none
      | some v => bearerTokenOf v cookiePre

/-- The candidate scan of getOAuthStateValue: first truthy
parsed?.[name]?.value along the candidate names. -/
def firstTruthyValue (parsed : JVal) : List String → Option JVal
  | [] => none
  | n :: rest =>
    let v := fieldValueAt parsed n
    if truthyOpt v then v else firstTruthyValue parsed rest

/-- getOAuthStateValue (lines 399-427): null on an absent jar, a parse
failure, or a falsy parse result; otherwise the first truthy oauth_state
value, secure-prefixed name before plain, per configured classification
string. -/
def getOAuthStateValue (cookieJson : Option JStr) (cookiePre : StrOrList) : Option JVal :=
  match cookieJson with
  | none => none
  | some s =>
    match jsonParse s with
    | none => none
    | some parsed =>
      if !(truthy parsed) then none
      else
        firstTruthyValue parsed
          ((toPrefixList cookiePre).flatMap (fun p =>
            [secureMarker ++ p ++ ".oauth_state", p ++ ".oauth_state"]))

/-- Uppercase hexadecimal digit. -/
def hexDigitChar : Nat → Char
  | 0 => '0' | 1 => '1' | 2 => '2' | 3 => '3' | 4 => '4' | 5 => '5' | 6 => '6' | 7 => '7'
  | 8 => '8' | 9 => '9' | 10 => 'A' | 11 => 'B' | 12 => 'C' | 13 => 'D' | 14 => 'E' | _ => 'F'

/-- UTF-8 bytes of a character. -/
def utf8BytesOf (c : Char) : List Nat :=
  let n := c.toNat
  if n < 128 then [n]
  else if n < 2048 then [192 + n / 64, 128 + n % 64]
  else if n < 65536 then [224 + n / 4096, 128 + (n / 64) % 64, 128 + n % 64]
  else [240 + n / 262144, 128 + (n / 4096) % 64, 128 + (n / 64) % 64, 128 + n % 64]

/-- A percent-encoded byte. -/
def pctByte (b : Nat) : String :=
  String.mk ['%', hexDigitChar (b / 16), hexDigitChar (b % 16)]

/-- Characters URLSearchParams leaves unencoded. -/
def formSafeChar (c : Char) : Bool :=
  ('A' ≤ c && c ≤ 'Z') || ('a' ≤ c && c ≤ 'z') || ('0' ≤ c && c ≤ '9')
    || c = '*' || c = '-' || c = '.' || c = '_'

/-- application/x-www-form-urlencoded encoding of one character. -/
def formEncodeChar (c : Char) : String :=
  if formSafeChar c then String.mk [c]
  else if c = ' ' then "+"
  else String.join ((utf8BytesOf c).map pctByte)

/-- URLSearchParams encoding of a string. -/
def formEncode (s : String) : String :=
  String.join (s.data.map formEncodeChar)

/-- URLSearchParams.toString on a parameter list. -/
def paramsToString (ps : List (String × String)) : String :=
  String.intercalate "&" (ps.map (fun p => formEncode p.1 ++ "=" ++ formEncode p.2))

/-- The proxy URL the OAuth redirect block opens (lines 573-581): the
authorizationURL parameter, then oauthState when the jar holds a truthy
oauth_state value. -/
def buildOAuthProxyURL (baseURL signInURL : String) (storedCookieJson : Option JStr)
    (cookiePre : StrOrList) : String :=
  let ps := [("authorizationURL", signInURL)] ++
    (match getOAuthStateValue storedCookieJson cookiePre with
     | some v => [("oauthState", jsDisplay v)]
     | none => [])
  baseURL ++ "/capacitor-authorization-proxy?" ++ paramsToString ps

/-- The in-memory session atom: data, error, isPending, and the rest of
its properties, which the sign-out reset spreads through unchanged. -/
structure SessionAtom where
  data : Option JVal
  error : Option JVal
  isPending : Bool
  extra : List (String × JVal)

/-- The persisted and in-memory state the init hook can write: the cookie
jar and session-data cache (absent until first set) and the session atom. -/
structure PluginState where
  jar : Option JStr
  sessionCache : Option JStr
  session : SessionAtom

/-- The state change of the init (pre-request) hook, lines 680-690: on a
sign-out URL it sets the jar and the session-data cache to the literal
string of the empty object and clears the session atom in place, before
the request goes out; on the web platform or any other URL it changes
nothing.  (The bearer-header computation of init does not write state.) -/
def initTransition (native : Bool) (url : String) (st : PluginState) : PluginState :=
  if native && strContains url "/sign-out" then
    { jar := some (JStr.ofJson (JVal.jobj [])),
      sessionCache := some (JStr.ofJson (JVal.jobj [])),
      session := { data := none, error := none, isPending := false,
                   extra := st.session.extra } }
  else st

/-!
A typed view of well-shaped stored records, used to state claims about
jars of the shape the plugin itself writes.
-/

/-- A stored cookie entry as the spec describes it: a value and an
optional expiry timestamp. -/
structure StoredCookie where
  value : String
  expires : Option Int

/-- The JSON fields of a typed record. -/
def encFields (l : List (String × StoredCookie)) : List (String × JVal) :=
  l.map (fun p => (p.1, storedJVal p.2.value p.2.expires))

/-- The serialized jar of a typed record. -/
def encJar (l : List (String × StoredCookie)) : JStr :=
  JStr.ofJson (JVal.jobj (encFields l))

/-- Whether a JSON value is a stored-cookie record: exactly a string value
field and a string-or-null expires field. -/
def isStoredShape : JVal → Bool
  | .jobj [("value", .jstr _), ("expires", .jstr _)] => true
  | .jobj [("value", .jstr _), ("expires", .jnull)] => true
  | _ => false

/-- Whether a previous-jar argument contributes only stored-cookie-shaped
entries to the merge: absent or malformed jars contribute nothing, a
parseable jar contributes its enumerable entries. -/
def prevEnumOk : Option JStr → Bool
  | none => true
  | some .malformed => true
  | some (.ofJson v) => (spreadFields v).all (fun q => isStoredShape q.2)

/-- The fields of a jar string that parses as an object. -/
def jarFieldsOf : JStr → List (String × JVal)
  | .ofJson (.jobj fs) => fs
  | _ => []

/-!
Lemmas.  First the association-list layer: property assignment, key sets,
lookups, and the extensionality that drives the merge idempotence proof.
-/

section AssocLemmas

variable {β : Type}

@[simp] theorem keysOf_nil : keysOf ([] : List (String × β)) = [] := rfl

@[simp] theorem keysOf_cons (p : String × β) (l : List (String × β)) :
    keysOf (p :: l) = p.1 :: keysOf l := rfl

@[simp] theorem keysOf_append (a b : List (String × β)) :
    keysOf (a ++ b) = keysOf a ++ keysOf b := by
  simp [keysOf]

@[simp] theorem lookupKey_nil (k : String) :
    lookupKey k ([] : List (String × β)) = none := rfl

@[simp] theorem lookupKey_cons (k k' : String) (v : β) (rest : List (String × β)) :
    lookupKey k ((k', v) :: rest) = if k' = k then some v else lookupKey k rest := rfl

theorem lookupKey_eq_none_of_not_mem {a : List (String × β)} {k : String}
    (h : k ∉ keysOf a) : lookupKey k a = none := by
  induction a with
  | nil => rfl
  | cons p rest ih =>
    obtain ⟨k', v⟩ := p
    simp only [keysOf_cons, List.mem_cons] at h
    push_neg at h
    simp [Ne.symm h.1, ih h.2]

theorem lookupKey_append (a b : List (String × β)) (k : String) :
    lookupKey k (a ++ b) = (lookupKey k a).orElse (fun _ => lookupKey k b) := by
  induction a with
  | nil => simp [Option.orElse]
  | cons p rest ih =>
    obtain ⟨k', v⟩ := p
    by_cases h : k' = k <;> simp [h, ih, Option.orElse]

theorem mem_keysOf_of_lookupKey {a : List (String × β)} {k : String} {v : β}
    (h : lookupKey k a = some v) : k ∈ keysOf a := by
  by_contra hmem
  rw [lookupKey_eq_none_of_not_mem hmem] at h
  exact Option.noConfusion h

theorem lookupKey_objSet (a : List (String × β)) (k k' : String) (v : β) :
    lookupKey k' (objSet a k v) = if k' = k then some v else lookupKey k' a := by
  induction a with
  | nil =>
    by_cases h : k' = k
    · subst h; simp [objSet]
    · simp [objSet, h, Ne.symm h]
  | cons p rest ih =>
    obtain ⟨k0, v0⟩ := p
    by_cases h0 : k0 = k
    · subst h0
      by_cases h1 : k0 = k'
      · subst h1; simp [objSet]
      · simp [objSet, h1, Ne.symm h1]
    · by_cases h1 : k0 = k'
      · subst h1
        simp [objSet, h0, Ne.symm h0]
      · simp [objSet, h0, h1, ih]

theorem keysOf_objSet (a : List (String × β)) (k : String) (v : β) :
    keysOf (objSet a k v) =
      if k ∈ keysOf a then keysOf a else keysOf a ++ [k] := by
  induction a with
  | nil => simp [objSet]
  | cons p rest ih =>
    obtain ⟨k0, v0⟩ := p
    by_cases h0 : k0 = k
    · subst h0; simp [objSet]
    · by_cases h1 : k ∈ keysOf rest
      · simp [objSet, h0, Ne.symm h0, h1, ih]
      · simp [objSet, h0, Ne.symm h0, h1, ih]

theorem nodup_keysOf_objSet {a : List (String × β)} {k : String} {v : β}
    (h : (keysOf a).Nodup) : (keysOf (objSet a k v)).Nodup := by
  rw [keysOf_objSet]
  by_cases hm : k ∈ keysOf a
  · simpa [hm] using h
  · rw [if_neg hm, List.nodup_append]
    refine ⟨h, List.nodup_singleton k, ?_⟩
    intro x hx hx2
    simp only [List.mem_singleton] at hx2
    subst hx2
    exact hm hx

theorem objSet_eq_append {acc : List (String × β)} {k : String} {v : β}
    (h : k ∉ keysOf acc) : objSet acc k v = acc ++ [(k, v)] := by
  induction acc with
  | nil => simp [objSet]
  | cons q tl ihq =>
    obtain ⟨k1, v1⟩ := q
    simp only [keysOf_cons, List.mem_cons] at h
    push_neg at h
    rw [objSet, if_neg (Ne.symm h.1), ihq h.2]
    simp

theorem lookupKey_setAll (l acc : List (String × β)) (k : String) :
    lookupKey k (setAll acc l) =
      (lookupKey k l.reverse).orElse (fun _ => lookupKey k acc) := by
  induction l generalizing acc with
  | nil => simp [setAll, Option.orElse]
  | cons p rest ih =>
    obtain ⟨k0, v0⟩ := p
    rw [setAll, ih]
    have happ : lookupKey k (rest.reverse ++ [(k0, v0)]) =
        (lookupKey k rest.reverse).orElse (fun _ => lookupKey k [(k0, v0)]) := by
      induction rest.reverse with
      | nil => simp [Option.orElse]
      | cons q tl ihq =>
        obtain ⟨k1, v1⟩ := q
        by_cases h1 : k1 = k <;> simp [h1, ihq, Option.orElse]
    rw [List.reverse_cons, happ]
    simp only [lookupKey_objSet]
    cases hrev : lookupKey k rest.reverse with
    | some w => simp [Option.orElse]
    | none =>
      by_cases h1 : k0 = k
      · subst h1; simp [Option.orElse]
      · simp [h1, Ne.symm h1, Option.orElse]

theorem mem_keysOf_setAll (l acc : List (String × β)) (k : String) :
    k ∈ keysOf (setAll acc l) ↔ k ∈ keysOf acc ∨ k ∈ keysOf l := by
  induction l generalizing acc with
  | nil => simp [setAll]
  | cons p rest ih =>
    obtain ⟨k0, v0⟩ := p
    rw [setAll, ih, keysOf_objSet]
    by_cases h0 : k0 ∈ keysOf acc
    · simp only [if_pos h0, keysOf_cons, List.mem_cons]
      constructor
      · rintro (h | h)
        · exact Or.inl h
        · exact Or.inr (Or.inr h)
      · rintro (h | h | h)
        · exact Or.inl h
        · exact Or.inl (h ▸ h0)
        · exact Or.inr h
    · simp only [if_neg h0, List.mem_append, List.mem_singleton, keysOf_cons, List.mem_cons]
      tauto

theorem keysOf_setAll_of_subset {l acc : List (String × β)}
    (h : ∀ k ∈ keysOf l, k ∈ keysOf acc) : keysOf (setAll acc l) = keysOf acc := by
  induction l generalizing acc with
  | nil => simp [setAll]
  | cons p rest ih =>
    obtain ⟨k0, v0⟩ := p
    rw [setAll]
    have h0 : k0 ∈ keysOf acc := h k0 (by simp)
    have hobj : keysOf (objSet acc k0 v0) = keysOf acc := by
      rw [keysOf_objSet, if_pos h0]
    rw [ih (fun k hk => by rw [hobj]; exact h k (by simp [hk])), hobj]

theorem nodup_keysOf_setAll {l acc : List (String × β)}
    (h : (keysOf acc).Nodup) : (keysOf (setAll acc l)).Nodup := by
  induction l generalizing acc with
  | nil => simpa [setAll]
  | cons p rest ih => exact ih (nodup_keysOf_objSet h)

theorem assoc_ext {a b : List (String × β)}
    (ha : (keysOf a).Nodup) (hb : (keysOf b).Nodup)
    (hk : keysOf a = keysOf b) (hl : ∀ k, lookupKey k a = lookupKey k b) :
    a = b := by
  induction a generalizing b with
  | nil =>
    cases b with
    | nil => rfl
    | cons q tl => simp [keysOf] at hk
  | cons p rest ih =>
    obtain ⟨k0, v0⟩ := p
    cases b with
    | nil => simp [keysOf] at hk
    | cons q tl =>
      obtain ⟨k1, v1⟩ := q
      simp only [keysOf_cons, List.cons.injEq] at hk
      obtain ⟨hkey, htl⟩ := hk
      subst hkey
      have hv : v0 = v1 := by
        have := hl k0
        simpa using this
      subst hv
      simp only [keysOf_cons, List.nodup_cons] at ha hb
      have htail : ∀ k, lookupKey k rest = lookupKey k tl := by
        intro k
        by_cases hkk : k = k0
        · subst hkk
          rw [lookupKey_eq_none_of_not_mem ha.1, lookupKey_eq_none_of_not_mem hb.1]
        · have := hl k
          simpa [Ne.symm hkk] using this
      rw [ih ha.2 hb.2 htl htail]

theorem setAll_eq_append {l acc : List (String × β)}
    (hnd : (keysOf l).Nodup) (hdisj : ∀ k ∈ keysOf l, k ∉ keysOf acc) :
    setAll acc l = acc ++ l := by
  induction l generalizing acc with
  | nil => simp [setAll]
  | cons p rest ih =>
    obtain ⟨k0, v0⟩ := p
    simp only [keysOf_cons, List.nodup_cons] at hnd
    have hk0 : k0 ∉ keysOf acc := hdisj k0 (by simp)
    have hdisj2 : ∀ k ∈ keysOf rest, k ∉ keysOf (acc ++ [(k0, v0)]) := by
      intro k hk hmem
      simp only [keysOf_append, List.mem_append, keysOf_cons, keysOf_nil,
        List.mem_cons, List.not_mem_nil, or_false] at hmem
      rcases hmem with hmem | hmem
      · exact hdisj k (by simp [hk]) hmem
      · exact hnd.1 (hmem ▸ hk)
    rw [setAll, objSet_eq_append hk0, ih hnd.2 hdisj2]
    simp

theorem setAll_nil_eq {l : List (String × β)} (hnd : (keysOf l).Nodup) :
    setAll [] l = l := by
  simpa using @setAll_eq_append _ _ [] hnd (by simp [keysOf])

theorem setAll_setAll_self {l acc : List (String × β)}
    (h : (keysOf acc).Nodup) : setAll (setAll acc l) l = setAll acc l := by
  apply assoc_ext (nodup_keysOf_setAll (nodup_keysOf_setAll h)) (nodup_keysOf_setAll h)
  · apply keysOf_setAll_of_subset
    intro k hk
    rw [mem_keysOf_setAll]
    exact Or.inr hk
  · intro k
    simp only [lookupKey_setAll]
    cases lookupKey k l.reverse <;> simp [Option.orElse]

theorem objSet_values_pred {acc : List (String × β)} {pred : β → Bool} {k : String} {v : β}
    (hacc : ∀ q ∈ acc, pred q.2 = true) (hv : pred v = true) :
    ∀ q ∈ objSet acc k v, pred q.2 = true := by
  induction acc with
  | nil =>
    intro q hq
    simp [objSet] at hq
    rw [hq]
    exact hv
  | cons r tl ihr =>
    obtain ⟨k1, v1⟩ := r
    intro q hq
    by_cases h1 : k1 = k
    · rw [objSet, if_pos h1] at hq
      rcases List.mem_cons.mp hq with hq | hq
      · rw [hq]; exact hv
      · exact hacc q (List.mem_cons_of_mem _ hq)
    · rw [objSet, if_neg h1] at hq
      rcases List.mem_cons.mp hq with hq | hq
      · rw [hq]; exact hacc (k1, v1) (by simp)
      · exact ihr (fun r hr => hacc r (List.mem_cons_of_mem _ hr)) q hq

theorem setAll_values_pred {l acc : List (String × β)} {pred : β → Bool}
    (hacc : ∀ q ∈ acc, pred q.2 = true) (hl : ∀ q ∈ l, pred q.2 = true) :
    ∀ q ∈ setAll acc l, pred q.2 = true := by
  induction l generalizing acc with
  | nil =>
    intro q hq
    rw [setAll] at hq
    exact hacc q hq
  | cons p rest ih =>
    obtain ⟨k0, v0⟩ := p
    rw [setAll]
    exact ih (objSet_values_pred hacc (hl (k0, v0) (by simp)))
      (fun q hq => hl q (List.mem_cons_of_mem _ hq))

end AssocLemmas

/-!
The decimal codec standing in for the ISO date rendering: encoding a
timestamp and parsing it back returns the timestamp.
-/

theorem charToDigit_digitOfNat {d : Nat} (h : d < 10) :
    charToDigit (digitOfNat d) = some d := by
  interval_cases d <;> decide

theorem natToCharsAux_congr : ∀ n f1 f2, n < f1 → n < f2 →
    natToCharsAux f1 n = natToCharsAux f2 n := by
  intro n
  induction n using Nat.strong_induction_on with
  | _ n ih =>
    intro f1 f2 h1 h2
    cases f1 with
    | zero => omega
    | succ g1 =>
      cases f2 with
      | zero => omega
      | succ g2 =>
        by_cases h : n < 10
        · simp [natToCharsAux, h]
        · have hd : n / 10 < n := Nat.div_lt_self (by omega) (by decide)
          simp only [natToCharsAux, if_neg h]
          rw [ih (n / 10) hd g1 g2 (by omega) (by omega)]

theorem natToChars_lt {n : Nat} (h : n < 10) : natToChars n = [digitOfNat n] := by
  rw [natToChars, natToCharsAux, if_pos h]

theorem natToChars_ge {n : Nat} (h : ¬n < 10) :
    natToChars n = natToChars (n / 10) ++ [digitOfNat (n % 10)] := by
  rw [natToChars, natToCharsAux, if_neg h]
  have hd : n / 10 < n := Nat.div_lt_self (by omega) (by decide)
  rw [natToCharsAux_congr (n / 10) n (n / 10 + 1) hd (by omega)]
  rfl

theorem charsToNatAux_nil (acc : Nat) : charsToNatAux acc [] = some acc := rfl

theorem charsToNatAux_cons (acc : Nat) (c : Char) (rest : List Char) :
    charsToNatAux acc (c :: rest) =
      match charToDigit c with
      | some d => charsToNatAux (acc * 10 + d) rest
      | none => none := rfl

theorem charsToNat_cons (c : Char) (rest : List Char) :
    charsToNat (c :: rest) = charsToNatAux 0 (c :: rest) := rfl

theorem charsToNatAux_append (acc : Nat) (xs ys : List Char) :
    charsToNatAux acc (xs ++ ys) =
      match charsToNatAux acc xs with
      | some a => charsToNatAux a ys
      | none => none := by
  induction xs generalizing acc with
  | nil => simp [charsToNatAux]
  | cons c tl ih =>
    rw [List.cons_append]
    cases hc : charToDigit c with
    | none => simp [charsToNatAux_cons, hc]
    | some d => simp [charsToNatAux_cons, hc, ih]

theorem natToChars_ne_nil (n : Nat) : natToChars n ≠ [] := by
  by_cases h : n < 10
  · rw [natToChars_lt h]; simp
  · rw [natToChars_ge h]; simp

theorem charsToNatAux_natToChars (n : Nat) :
    ∀ acc, charsToNatAux acc (natToChars n) =
      some (acc * 10 ^ (natToChars n).length + n) := by
  induction n using Nat.strong_induction_on with
  | _ n ih =>
    intro acc
    by_cases h : n < 10
    · rw [natToChars_lt h, charsToNatAux_cons, charToDigit_digitOfNat h]
      simp [charsToNatAux_nil]
    · have hdiv : n / 10 < n := Nat.div_lt_self (by omega) (by decide)
      rw [natToChars_ge h, charsToNatAux_append, ih (n / 10) hdiv acc]
      simp only [charsToNatAux_cons, charToDigit_digitOfNat (Nat.mod_lt n (by omega)),
        charsToNatAux_nil, List.length_append, List.length_cons, List.length_nil]
      congr 1
      have hdm : n / 10 * 10 + n % 10 = n := by omega
      calc (acc * 10 ^ (natToChars (n / 10)).length + n / 10) * 10 + n % 10
          = acc * (10 ^ (natToChars (n / 10)).length * 10) + (n / 10 * 10 + n % 10) := by ring
        _ = acc * 10 ^ ((natToChars (n / 10)).length + (0 + 1)) + n := by
            rw [hdm, Nat.zero_add, pow_succ]

theorem charsToNat_natToChars (n : Nat) : charsToNat (natToChars n) = some n := by
  have h := charsToNatAux_natToChars n 0
  cases hcs : natToChars n with
  | nil => exact absurd hcs (natToChars_ne_nil n)
  | cons c tl =>
    rw [hcs] at h
    rw [charsToNat_cons, h]
    simp

theorem isoDecode_isoEncode (t : Int) : isoDecode (isoEncode t) = some t := by
  by_cases ht : t < 0
  · rw [isoEncode, if_pos ht]
    have hred : isoDecode (String.mk ('-' :: natToChars t.natAbs)) =
        (charsToNat (natToChars t.natAbs)).map (fun n => -(Int.ofNat n)) := rfl
    rw [hred, charsToNat_natToChars]
    simp only [Option.map_some', Int.ofNat_eq_coe]
    congr 1
    omega
  · rw [isoEncode, if_neg ht]
    cases hcs : natToChars t.toNat with
    | nil => exact absurd hcs (natToChars_ne_nil _)
    | cons c tl =>
      have hsome := charsToNat_natToChars t.toNat
      rw [hcs] at hsome
      have hc : ¬(c = '-') := by
        intro he
        rw [he, charsToNat_cons, charsToNatAux_cons] at hsome
        rw [show charToDigit '-' = none from rfl] at hsome
        exact Option.noConfusion hsome
      have hred : isoDecode (String.mk (c :: tl)) =
          (if c = '-' then (charsToNat tl).map (fun n => -(Int.ofNat n))
           else (charsToNat (c :: tl)).map (fun n => Int.ofNat n)) := rfl
      rw [hred, if_neg hc, hsome]
      simp only [Option.map_some', Int.ofNat_eq_coe]
      congr 1
      omega

theorem isoEncode_data_ne_nil (t : Int) : (isoEncode t).data ≠ [] := by
  rw [isoEncode]
  split
  · intro h
    exact List.noConfusion h
  · intro h
    exact natToChars_ne_nil _ h

theorem isoEncode_ne_empty (t : Int) : isoEncode t ≠ "" := by
  intro h
  apply isoEncode_data_ne_nil t
  rw [h]

/-!
Bridging lemmas between well-shaped stored records and their JSON image.
-/

theorem getFieldOpt_storedJVal_value (v : String) (e : Option Int) :
    getFieldOpt (some (storedJVal v e)) "value" = some (JVal.jstr v) := rfl

theorem getFieldOpt_storedJVal_expires_none (v : String) :
    getFieldOpt (some (storedJVal v none)) "expires" = some JVal.jnull := rfl

theorem getFieldOpt_storedJVal_expires_some (v : String) (t : Int) :
    getFieldOpt (some (storedJVal v (some t))) "expires" =
      some (JVal.jstr (isoEncode t)) := rfl

theorem keepEntry_enc_none (now : Int) (k v : String) :
    keepEntry now (k, storedJVal v none) = true := rfl

theorem keepEntry_enc_some (now : Int) (k v : String) (t : Int) :
    keepEntry now (k, storedJVal v (some t)) = decide (now ≤ t) := by
  have h : decide (isoEncode t = "") = false := decide_eq_false (isoEncode_ne_empty t)
  simp only [keepEntry, getFieldOpt_storedJVal_expires_some, truthyOpt, truthy,
    dateOfJVal, isoDecode_isoEncode, h]
  simp

theorem renderEntry_enc (k v : String) (e : Option Int) :
    renderEntry (k, storedJVal v e) = k ++ "=" ++ v := by
  simp only [renderEntry, getFieldOpt_storedJVal_value, jsDisplayOpt, jsDisplay,
    jsDisplayElem]

theorem storedExpiry_eq (now : Int) (c : RawCookie) :
    storedExpiry now c =
      match c.maxAge with
      | some m => if m = 0 then c.expiresAttr else some (now + m * 1000)
      | none => c.expiresAttr := by
  cases hma : c.maxAge with
  | none =>
    simp only [storedExpiry, numTruthy, hma, Bool.false_eq_true, if_false]
    cases c.expiresAttr <;> rfl
  | some m =>
    by_cases hm : m = 0
    · subst hm
      simp only [storedExpiry, numTruthy, hma]
      simp
      cases c.expiresAttr <;> rfl
    · simp [storedExpiry, numTruthy, hma, hm]

/-!
The claims.
-/

/-- Claim C1, counterexample to the stated boundary: a stored entry whose
expires equals the current time is kept by getCookie (the source compares
with >=), while the claim says an entry expiring exactly at the current
time is filtered out, which would leave the output empty here. -/
theorem claim_C1_counterexample :
    getCookie 1000 (encJar [("a", ⟨"v", some 1000⟩)]) = "a=v" ∧
      getCookie 1000 (encJar [("a", ⟨"v", some 1000⟩)]) ≠ "" := by
  constructor
  · decide
  · decide

/-- Claim C1 (amended): for every stored cookie record, getCookie filters
out exactly the entries whose expires is non-null and strictly before the
current time, keeps every entry whose expires is null or at or after the
current time, and joins the survivors as name=value pairs separated by
a semicolon and a space. -/
theorem claim_C1_ok (now : Int) (entries : List (String × StoredCookie)) :
    getCookie now (encJar entries) =
      String.intercalate "; "
        ((entries.filter (fun e =>
            match e.2.expires with
            | none => true
            | some t => decide (now ≤ t))).map
          (fun e => e.1 ++ "=" ++ e.2.value)) := by
  have hmain : validCookiePairs now (JVal.jobj (encFields entries)) =
      (entries.filter (fun e =>
          match e.2.expires with
          | none => true
          | some t => decide (now ≤ t))).map (fun e => e.1 ++ "=" ++ e.2.value) := by
    induction entries with
    | nil => rfl
    | cons p rest ih =>
      obtain ⟨k, c⟩ := p
      obtain ⟨v, e⟩ := c
      simp only [validCookiePairs, spreadFields, encFields, List.map_cons,
        List.filter_cons] at ih ⊢
      cases e with
      | none =>
        simp only [keepEntry_enc_none, if_true]
        simp only [List.map_cons, renderEntry_enc, ih]
      | some t =>
        simp only [keepEntry_enc_some]
        by_cases hle : now ≤ t
        · simp [decide_eq_true hle, renderEntry_enc, ih]
        · simp [decide_eq_false hle, ih]
  simp only [getCookie, encJar, jsonParse, hmain]

/-- Parsed-map keys are exactly the header names. -/
theorem mem_keysOf_parseMap (header : List RawCookie) (k : String) :
    k ∈ keysOf (parseMap header) ↔ ∃ c ∈ header, c.name = k := by
  rw [parseMap, mem_keysOf_setAll]
  simp [keysOf, List.map_map, Function.comp]

/-- Dedup keeps membership. -/
theorem mem_dedupKeys (l : List String) (k : String) : k ∈ dedupKeys l ↔ k ∈ l := by
  suffices h : ∀ acc, k ∈ l.foldl
      (fun acc k => if acc.contains k then acc else acc ++ [k]) acc ↔
        k ∈ acc ∨ k ∈ l by
    simpa [dedupKeys] using h []
  induction l with
  | nil => intro acc; simp
  | cons c rest ih =>
    intro acc
    rw [List.foldl_cons]
    by_cases hc : acc.contains c
    · rw [if_pos hc, ih acc]
      have hcmem : c ∈ acc := List.elem_iff.mp hc
      constructor
      · rintro (h | h)
        · exact Or.inl h
        · exact Or.inr (List.mem_cons_of_mem _ h)
      · rintro (h | h)
        · exact Or.inl h
        · rcases List.mem_cons.mp h with rfl | h
          · exact Or.inl hcmem
          · exact Or.inr h
    · rw [if_neg hc, ih (acc ++ [c])]
      simp only [List.mem_append, List.mem_singleton, List.mem_cons]
      tauto

/-- Entry names survive the typed-record encoding. -/
theorem keysOf_encFields (l : List (String × StoredCookie)) :
    keysOf (encFields l) = keysOf l := by
  induction l with
  | nil => rfl
  | cons p rest ih =>
    simp only [encFields, List.map_cons, keysOf_cons] at ih ⊢
    rw [ih]

/-- Lookup in the encoded record mirrors lookup in the typed record. -/
theorem lookupKey_encFields (l : List (String × StoredCookie)) (k : String) :
    lookupKey k (encFields l) =
      (lookupKey k l).map (fun c => storedJVal c.value c.expires) := by
  induction l with
  | nil => rfl
  | cons p rest ih =>
    obtain ⟨k0, c⟩ := p
    by_cases h : k0 = k
    · subst h; simp [encFields]
    · simp only [encFields, List.map_cons, lookupKey_cons, if_neg h] at ih ⊢
      exact ih

/-- The value field the session diff reads off an encoded record. -/
theorem fieldValueAt_encFields (l : List (String × StoredCookie)) (k : String) :
    fieldValueAt (JVal.jobj (encFields l)) k =
      ((lookupKey k l).map StoredCookie.value).map JVal.jstr := by
  simp only [fieldValueAt, fieldAt, spreadFields]
  rw [lookupKey_encFields]
  cases lookupKey k l with
  | none => rfl
  | some c => rfl

/-- Strict equality of encoded string values is string equality. -/
theorem optValBeq_jstr (a b : Option String) :
    optValBeq (a.map JVal.jstr) (b.map JVal.jstr) = true ↔ a = b := by
  cases a <;> cases b <;> simp [optValBeq, jvalBeq]

/-- Claim C3: hasSessionCookieChanged is true on an absent previous
record; otherwise, over well-shaped records, it is true exactly when some
session-relevant entry name (one containing session_token or
session_data, from either record) maps to differing values, an entry
present on one side only counting as differing; records differing only in
expires therefore compare unchanged. -/
theorem claim_C3_ok (prevE nextE : List (String × StoredCookie)) :
    (∀ next : JStr, hasSessionCookieChanged none next = true) ∧
    (hasSessionCookieChanged (some (encJar prevE)) (encJar nextE) = true ↔
      ∃ k, isSessionKey k = true ∧
        (lookupKey k prevE).map StoredCookie.value ≠
          (lookupKey k nextE).map StoredCookie.value) := by
  refine ⟨fun next => rfl, ?_⟩
  have hred : hasSessionCookieChanged (some (encJar prevE)) (encJar nextE) =
      (dedupKeys (((keysOf (encFields prevE)).filter isSessionKey)
        ++ ((keysOf (encFields nextE)).filter isSessionKey))).any
        (fun k => !(optValBeq (fieldValueAt (JVal.jobj (encFields prevE)) k)
          (fieldValueAt (JVal.jobj (encFields nextE)) k))) := rfl
  rw [hred, List.any_eq_true]
  constructor
  · rintro ⟨k, hkmem, hk⟩
    rw [mem_dedupKeys] at hkmem
    have hsk : isSessionKey k = true := by
      rcases List.mem_append.mp hkmem with hm | hm
      · exact (List.mem_filter.mp hm).2
      · exact (List.mem_filter.mp hm).2
    refine ⟨k, hsk, ?_⟩
    intro heq
    rw [fieldValueAt_encFields, fieldValueAt_encFields, heq,
      (optValBeq_jstr ((lookupKey k nextE).map StoredCookie.value)
        ((lookupKey k nextE).map StoredCookie.value)).mpr rfl] at hk
    simp at hk
  · rintro ⟨k, hsk, hne⟩
    refine ⟨k, ?_, ?_⟩
    · rw [mem_dedupKeys, List.mem_append]
      by_cases hp : k ∈ keysOf prevE
      · exact Or.inl (List.mem_filter.mpr ⟨by rw [keysOf_encFields]; exact hp, hsk⟩)
      · by_cases hn : k ∈ keysOf nextE
        · exact Or.inr (List.mem_filter.mpr ⟨by rw [keysOf_encFields]; exact hn, hsk⟩)
        · exact absurd (by rw [lookupKey_eq_none_of_not_mem hp,
            lookupKey_eq_none_of_not_mem hn]) hne
    · rw [fieldValueAt_encFields, fieldValueAt_encFields]
      cases hob : optValBeq (((lookupKey k prevE).map StoredCookie.value).map JVal.jstr)
          (((lookupKey k nextE).map StoredCookie.value).map JVal.jstr) with
      | false => rfl
      | true => exact absurd ((optValBeq_jstr _ _).mp hob) hne

/-- Claim C4: hasBetterAuthCookies holds exactly when some parsed cookie
name, stripped of the secure marker, either starts with a non-empty
configured classification string, or, for the empty classification
string, ends with session_token or session_data; with the three concrete
classifications of the claim. -/
theorem claim_C4_ok (header : List RawCookie) (cps : List String) :
    (hasBetterAuthCookies header (.list cps) = true ↔
      ∃ c ∈ header, ∃ p ∈ cps,
        ((p ≠ "" ∧ strStartsWith (stripSecure c.name) p = true) ∨
         (p = "" ∧ (strEndsWith (stripSecure c.name) "session_token" = true ∨
            strEndsWith (stripSecure c.name) "session_data" = true)))) ∧
    hasBetterAuthCookies [⟨"__Secure-better-auth.session_token", "x", none, none⟩]
      (.list ["better-auth"]) = true ∧
    hasBetterAuthCookies [⟨"__cf_bm", "x", none, none⟩] (.list ["better-auth"]) = false ∧
    hasBetterAuthCookies [⟨"foo_session_token", "x", none, none⟩] (.list [""]) = true := by
  refine ⟨?_, by decide, by decide, by decide⟩
  simp only [hasBetterAuthCookies, toPrefixList]
  rw [List.any_eq_true]
  constructor
  · rintro ⟨nm, hnm, hp⟩
    rw [List.any_eq_true] at hp
    obtain ⟨p, hpmem, hmatch⟩ := hp
    obtain ⟨c, hc, rfl⟩ := (mem_keysOf_parseMap header nm).mp hnm
    refine ⟨c, hc, p, hpmem, ?_⟩
    by_cases hpe : p = ""
    · subst hpe
      right
      refine ⟨rfl, ?_⟩
      simpa using hmatch
    · left
      refine ⟨hpe, ?_⟩
      simpa [hpe] using hmatch
  · rintro ⟨c, hc, p, hpmem, hmatch⟩
    refine ⟨c.name, (mem_keysOf_parseMap header c.name).mpr ⟨c, hc, rfl⟩, ?_⟩
    rw [List.any_eq_true]
    refine ⟨p, hpmem, ?_⟩
    rcases hmatch with ⟨hpe, hsw⟩ | ⟨hpe, hew⟩
    · simpa [hpe] using hsw
    · subst hpe
      simpa using hew

/-- Incoming-entry keys are the parsed-map keys. -/
theorem keysOf_incomingFields (now : Int) (header : List RawCookie) :
    keysOf (incomingFields now header) = keysOf (parseMap header) := by
  simp [incomingFields, keysOf, List.map_map, Function.comp]

/-- The incoming entries carry each parsed name once. -/
theorem nodup_keysOf_incomingFields (now : Int) (header : List RawCookie) :
    (keysOf (incomingFields now header)).Nodup := by
  rw [keysOf_incomingFields, parseMap]
  exact nodup_keysOf_setAll (by simp [keysOf])

/-- On duplicate-free keys, lookup in the reversed list agrees. -/
theorem lookupKey_reverse {β : Type} {l : List (String × β)}
    (hnd : (keysOf l).Nodup) (k : String) :
    lookupKey k l.reverse = lookupKey k l := by
  induction l with
  | nil => rfl
  | cons p rest ih =>
    obtain ⟨k0, v0⟩ := p
    simp only [keysOf_cons, List.nodup_cons] at hnd
    rw [List.reverse_cons, lookupKey_append, ih hnd.2]
    by_cases h : k0 = k
    · subst h
      rw [lookupKey_eq_none_of_not_mem hnd.1]
      simp [Option.orElse]
    · cases hr : lookupKey k rest <;> simp [Option.orElse, h, hr]

/-- Re-merging an already-merged record with the same incoming entries
changes nothing. -/
theorem mergeFields_merge_incoming (p i : List (String × JVal)) :
    mergeFields (mergeFields p i) i = mergeFields p i := by
  have hA : (keysOf (setAll ([] : List (String × JVal)) p)).Nodup :=
    nodup_keysOf_setAll (by simp [keysOf])
  have h1 : (keysOf (mergeFields p i)).Nodup := nodup_keysOf_setAll hA
  conv =>
    lhs
    rw [mergeFields, setAll_nil_eq h1]
  rw [mergeFields]
  exact setAll_setAll_self hA

/-- Merging duplicate-free entries into the empty record and then again
with themselves is the identity. -/
theorem mergeFields_self {i : List (String × JVal)} (hnd : (keysOf i).Nodup) :
    mergeFields i i = i := by
  rw [mergeFields, setAll_setAll_self (by simp [keysOf]), setAll_nil_eq hnd]

/-- Claim C9: merging the same header twice in succession (at one clock
reading) equals merging it once; a malformed previous jar merges like an
absent one; and incoming names always carry the incoming entry in the
result (incoming wins per name). -/
theorem claim_C9_ok (now : Int) (header : List RawCookie) (prev : Option JStr) :
    getSetCookie now header (some (getSetCookie now header prev)) =
      getSetCookie now header prev ∧
    getSetCookie now header (some JStr.malformed) = getSetCookie now header none ∧
    (∀ k : String, (lookupKey k (incomingFields now header)).isSome = true →
      lookupKey k (jarFieldsOf (getSetCookie now header prev)) =
        lookupKey k (incomingFields now header)) := by
  have hI : (keysOf (incomingFields now header)).Nodup :=
    nodup_keysOf_incomingFields now header
  refine ⟨?_, rfl, ?_⟩
  · cases prev with
    | none =>
      show JStr.ofJson (JVal.jobj (mergeFields (incomingFields now header)
        (incomingFields now header))) = JStr.ofJson (JVal.jobj (incomingFields now header))
      rw [mergeFields_self hI]
    | some s =>
      cases s with
      | malformed =>
        show JStr.ofJson (JVal.jobj (mergeFields (incomingFields now header)
          (incomingFields now header))) = JStr.ofJson (JVal.jobj (incomingFields now header))
        rw [mergeFields_self hI]
      | ofJson v =>
        show JStr.ofJson (JVal.jobj (mergeFields (mergeFields (spreadFields v)
            (incomingFields now header)) (incomingFields now header))) =
          JStr.ofJson (JVal.jobj (mergeFields (spreadFields v) (incomingFields now header)))
        rw [mergeFields_merge_incoming]
  · intro k hk
    cases hlk : lookupKey k (incomingFields now header) with
    | none => rw [hlk] at hk; exact Bool.noConfusion hk
    | some w =>
      cases prev with
      | none => exact hlk
      | some s =>
        cases s with
        | malformed => exact hlk
        | ofJson v =>
          show lookupKey k (mergeFields (spreadFields v) (incomingFields now header)) =
            some w
          rw [mergeFields, lookupKey_setAll, lookupKey_reverse hI, hlk]
          simp [Option.orElse]

/-- Claim C9 witness: at a concrete header and previous jar, the incoming
entry wins for its name. -/
theorem claim_C9_witness :
    lookupKey "a" (jarFieldsOf (getSetCookie 0 [⟨"a", "new", none, none⟩]
        (some (JStr.ofJson (JVal.jobj [("a", JVal.jstr "old")]))))) =
      lookupKey "a" (incomingFields 0 [⟨"a", "new", none, none⟩]) :=
  (claim_C9_ok 0 [⟨"a", "new", none, none⟩]
    (some (JStr.ofJson (JVal.jobj [("a", JVal.jstr "old")])))).2.2 "a" (by decide)

/-- Every entry getSetCookie builds from the header is a value-expires
record. -/
theorem isStoredShape_storedJVal (v : String) (e : Option Int) :
    isStoredShape (storedJVal v e) = true := by
  cases e <;> rfl

theorem incoming_all_shaped (now : Int) (header : List RawCookie) :
    ∀ q ∈ incomingFields now header, isStoredShape q.2 = true := by
  intro q hq
  simp only [incomingFields, List.mem_map] at hq
  obtain ⟨p, hp, rfl⟩ := hq
  exact isStoredShape_storedJVal _ _

/-- Claim C10, counterexample: a parseable previous jar whose entry is
not a value-expires record passes that entry through to the output, so
the output is a JSON object but not a mapping to value-expires entries. -/
theorem claim_C10_counterexample :
    jarFieldsOf (getSetCookie 0 [⟨"b", "w", none, none⟩]
        (some (JStr.ofJson (JVal.jobj [("a", JVal.jnum 1)])))) =
      [("a", JVal.jnum 1), ("b", storedJVal "w" none)] ∧
    isStoredShape (JVal.jnum 1) = false :=
  ⟨rfl, rfl⟩

/-- Claim C10 (amended): the string getSetCookie returns always parses as
a JSON object, so getCookie never takes its malformed-JSON branch on it
and renders the surviving entries; and whenever the previous jar is
absent, malformed, or contributes only value-expires entries, every entry
of the output is a value-expires record. -/
theorem claim_C10_ok (now : Int) (header : List RawCookie) (prev : Option JStr) :
    (∃ fs, jsonParse (getSetCookie now header prev) = some (JVal.jobj fs)) ∧
    getCookie now (getSetCookie now header prev) =
      String.intercalate "; "
        (validCookiePairs now (JVal.jobj (jarFieldsOf (getSetCookie now header prev)))) ∧
    (prevEnumOk prev = true →
      (jarFieldsOf (getSetCookie now header prev)).all
        (fun q => isStoredShape q.2) = true) := by
  have hobj : ∃ fs, getSetCookie now header prev = JStr.ofJson (JVal.jobj fs) := by
    cases prev with
    | none => exact ⟨incomingFields now header, rfl⟩
    | some s =>
      cases s with
      | malformed => exact ⟨incomingFields now header, rfl⟩
      | ofJson v =>
        exact ⟨mergeFields (spreadFields v) (incomingFields now header), rfl⟩
  obtain ⟨fs, hfs⟩ := hobj
  refine ⟨⟨fs, by rw [hfs]; rfl⟩, by rw [hfs]; rfl, ?_⟩
  intro hok
  rw [List.all_eq_true]
  cases prev with
  | none =>
    intro q hq
    exact incoming_all_shaped now header q hq
  | some s =>
    cases s with
    | malformed =>
      intro q hq
      exact incoming_all_shaped now header q hq
    | ofJson v =>
      intro q hq
      have hsp : ∀ r ∈ spreadFields v, isStoredShape r.2 = true := by
        intro r hr
        have := (List.all_eq_true.mp hok) r hr
        exact this
      have hinner : ∀ r ∈ setAll ([] : List (String × JVal)) (spreadFields v),
          isStoredShape r.2 = true :=
        setAll_values_pred (by intro r hr; exact absurd hr (List.not_mem_nil r)) hsp
      exact setAll_values_pred hinner (incoming_all_shaped now header) q hq

/-- Claim C10 witness: a well-shaped previous jar and a fresh header give
an output of value-expires records only. -/
theorem claim_C10_witness :
    (jarFieldsOf (getSetCookie 0 [⟨"b", "y", some 5, none⟩]
        (some (JStr.ofJson (JVal.jobj [("a", storedJVal "x" none)]))))).all
      (fun q => isStoredShape q.2) = true :=
  (claim_C10_ok 0 [⟨"b", "y", some 5, none⟩]
    (some (JStr.ofJson (JVal.jobj [("a", storedJVal "x" none)])))).2.2 (by decide)

/-- The kept-and-rendered pairs of a jar of live entries are exactly the
name=value pairs, in order. -/
theorem validPairs_of_live (now : Int) (l : List RawCookie)
    (hlive : ∀ c ∈ l, (storedExpiry now c).all (fun t => decide (now < t)) = true) :
    validCookiePairs now (JVal.jobj (l.map (fun c =>
        (c.name, storedJVal c.value (storedExpiry now c))))) =
      l.map (fun c => c.name ++ "=" ++ c.value) := by
  induction l with
  | nil => rfl
  | cons c rest ih =>
    have hc := hlive c (by simp)
    have hrest : ∀ c2 ∈ rest, (storedExpiry now c2).all (fun t => decide (now < t)) = true :=
      fun c2 hc2 => hlive c2 (List.mem_cons_of_mem _ hc2)
    simp only [List.map_cons, validCookiePairs, spreadFields, List.filter_cons] at ih ⊢
    cases he : storedExpiry now c with
    | none =>
      simp [keepEntry_enc_none, renderEntry_enc, ih hrest]
    | some t =>
      rw [he] at hc
      have hle : now ≤ t := le_of_lt (of_decide_eq_true hc)
      simp [keepEntry_enc_some, decide_eq_true hle, renderEntry_enc, ih hrest]

/-- Claim C2: for a header of distinct cookie names none of which is
expired at read time, reading the jar produced by merging the header into
the serialized empty record yields a request header whose name=value
pairs are exactly the header pairs, as a set. -/
theorem claim_C2_ok (now : Int) (cookies : List RawCookie)
    (hnd : (cookies.map RawCookie.name).Nodup)
    (hlive : ∀ c ∈ cookies, (storedExpiry now c).all (fun t => decide (now < t)) = true) :
    ∃ pairs : List String,
      getCookie now (getSetCookie now cookies (some (JStr.ofJson (JVal.jobj [])))) =
        String.intercalate "; " pairs ∧
      pairs.Perm (cookies.map (fun c => c.name ++ "=" ++ c.value)) := by
  have hI : (keysOf (incomingFields now cookies)).Nodup :=
    nodup_keysOf_incomingFields now cookies
  have hjar : getSetCookie now cookies (some (JStr.ofJson (JVal.jobj []))) =
      JStr.ofJson (JVal.jobj (incomingFields now cookies)) := by
    show JStr.ofJson (JVal.jobj (mergeFields [] (incomingFields now cookies))) = _
    rw [mergeFields]
    show JStr.ofJson (JVal.jobj (setAll [] (incomingFields now cookies))) = _
    rw [setAll_nil_eq hI]
  have hpm : parseMap cookies = cookies.map (fun c => (c.name, c)) := by
    rw [parseMap]
    apply setAll_nil_eq
    simpa [keysOf, List.map_map, Function.comp] using hnd
  have hinc : incomingFields now cookies =
      cookies.map (fun c => (c.name, storedJVal c.value (storedExpiry now c))) := by
    rw [incomingFields, hpm, List.map_map]
    rfl
  refine ⟨validCookiePairs now (JVal.jobj (incomingFields now cookies)), ?_, ?_⟩
  · rw [hjar]
    rfl
  · rw [hinc, validPairs_of_live now cookies hlive]

/-- Claim C2 witness: two distinct unexpired cookies round-trip. -/
theorem claim_C2_witness :
    ∃ pairs : List String,
      getCookie 0 (getSetCookie 0 [⟨"a", "1", none, none⟩, ⟨"b", "2", some 60, none⟩]
        (some (JStr.ofJson (JVal.jobj [])))) = String.intercalate "; " pairs ∧
      pairs.Perm (([⟨"a", "1", none, none⟩, ⟨"b", "2", some 60, none⟩] :
        List RawCookie).map (fun c => c.name ++ "=" ++ c.value)) :=
  claim_C2_ok 0 [⟨"a", "1", none, none⟩, ⟨"b", "2", some 60, none⟩]
    (by decide) (by decide)

/-- Equality of strings follows from equality of their character data. -/
theorem strEq_of_data {a b : String} (h : a.data = b.data) : a = b := by
  cases a
  cases b
  simp only at h
  rw [h]

theorem intercalate_amp_singleton (a : String) : String.intercalate "&" [a] = a := rfl

theorem intercalate_amp_pair (a b : String) :
    String.intercalate "&" [a, b] = a ++ "&" ++ b := rfl

/-- Claim C5: the bearer accessor prefers the secure-prefixed
session-token entry when present, falls back to the plain name, and
returns null when neither is present; stated over well-shaped entries
with non-empty (truthy) token values. -/
theorem claim_C5_ok (p : String) (fields : List (String × JVal)) (vs vp : String)
    (e1 e2 : Option Int) :
    (lookupKey (secureTokenName p) fields = some (storedJVal vs e1) → vs ≠ "" →
      getCapacitorAuthToken true (some (JStr.ofJson (JVal.jobj fields))) p =
        some (JVal.jstr vs)) ∧
    (lookupKey (secureTokenName p) fields = none →
      lookupKey (plainTokenName p) fields = some (storedJVal vp e2) → vp ≠ "" →
      getCapacitorAuthToken true (some (JStr.ofJson (JVal.jobj fields))) p =
        some (JVal.jstr vp)) ∧
    (lookupKey (secureTokenName p) fields = none →
      lookupKey (plainTokenName p) fields = none →
      getCapacitorAuthToken true (some (JStr.ofJson (JVal.jobj fields))) p = none) := by
  have hred : getCapacitorAuthToken true (some (JStr.ofJson (JVal.jobj fields))) p =
      bearerTokenOf (JVal.jobj fields) p := rfl
  refine ⟨?_, ?_, ?_⟩
  · intro hs hvs
    rw [hred]
    simp [bearerTokenOf, fieldAt, spreadFields, hs, truthyOpt, truthy, storedJVal,
      getFieldOpt, decide_eq_false hvs]
  · intro hs hp hvp
    rw [hred]
    simp [bearerTokenOf, fieldAt, spreadFields, hs, hp, truthyOpt, truthy, storedJVal,
      getFieldOpt, decide_eq_false hvp]
  · intro hs hp
    rw [hred]
    simp [bearerTokenOf, fieldAt, spreadFields, hs, hp, truthyOpt, getFieldOpt]

/-- Claim C5 witness: on a record holding both the secure-prefixed and
the plain session-token entries with different values, the accessor
returns the secure-prefixed value. -/
theorem claim_C5_witness :
    getCapacitorAuthToken true (some (JStr.ofJson (JVal.jobj
      [("__Secure-better-auth.session_token", storedJVal "secureVal" none),
       ("better-auth.session_token", storedJVal "plainVal" none)]))) "better-auth" =
      some (JVal.jstr "secureVal") :=
  (claim_C5_ok "better-auth"
    [("__Secure-better-auth.session_token", storedJVal "secureVal" none),
     ("better-auth.session_token", storedJVal "plainVal" none)]
    "secureVal" "plainVal" none none).1 rfl (by decide)

/-- Claim C6: the OAuth block opens exactly the proxy URL formed from the
API base, the fixed proxy path, the form-encoded authorizationURL
parameter, and an oauthState parameter exactly when the stored jar yields
a truthy oauth_state value (secure-prefixed name preferred); concretely,
https://idp/auth encodes to https%3A%2F%2Fidp%2Fauth. -/
theorem claim_C6_ok (baseURL signInURL : String) (jar : Option JStr) (cp : StrOrList) :
    (buildOAuthProxyURL baseURL signInURL jar cp =
      baseURL ++ "/capacitor-authorization-proxy?authorizationURL=" ++ formEncode signInURL
        ++ (match getOAuthStateValue jar cp with
            | some v => "&oauthState=" ++ formEncode (jsDisplay v)
            | none => "")) ∧
    buildOAuthProxyURL "https://api.example.com" "https://idp/auth" none
        (.str "better-auth") =
      "https://api.example.com/capacitor-authorization-proxy?authorizationURL=https%3A%2F%2Fidp%2Fauth" ∧
    getOAuthStateValue (some (encJar [("__Secure-better-auth.oauth_state", ⟨"s1", none⟩),
      ("better-auth.oauth_state", ⟨"s2", none⟩)])) (.str "better-auth") =
      some (JVal.jstr "s1") := by
  refine ⟨?_, by decide, rfl⟩
  have ha : formEncode "authorizationURL" = "authorizationURL" := by decide
  have ho : formEncode "oauthState" = "oauthState" := by decide
  cases hst : getOAuthStateValue jar cp with
  | none =>
    simp only [buildOAuthProxyURL, hst, List.append_nil, paramsToString, List.map_cons,
      List.map_nil, intercalate_amp_singleton, ha]
    apply strEq_of_data
    simp [String.data_append, List.append_assoc]
  | some v =>
    simp only [buildOAuthProxyURL, hst, paramsToString, List.map_cons, List.map_nil,
      List.cons_append, List.nil_append, intercalate_amp_pair, ha, ho]
    apply strEq_of_data
    simp [String.data_append, List.append_assoc]

/-- Claim C7: on a sign-out request URL, the pre-request init hook leaves
the jar and the session-data cache holding a value that deserializes to
the empty record, and clears the in-memory session atom (data and error
null, isPending false), the rest of the atom passing through unchanged;
this happens in the hook itself, before the request is sent. -/
theorem claim_C7_ok (url : String) (st : PluginState)
    (h : strContains url "/sign-out" = true) :
    (initTransition true url st).jar = some (JStr.ofJson (JVal.jobj [])) ∧
    (initTransition true url st).sessionCache = some (JStr.ofJson (JVal.jobj [])) ∧
    (initTransition true url st).session.data = none ∧
    (initTransition true url st).session.error = none ∧
    (initTransition true url st).session.isPending = false ∧
    (initTransition true url st).session.extra = st.session.extra := by
  simp [initTransition, h]

/-- Claim C7 witness at a concrete sign-out URL and starting state. -/
theorem claim_C7_witness :
    (initTransition true "/api/auth/sign-out"
        ⟨some JStr.malformed, none,
          ⟨some (JVal.jstr "d"), some (JVal.jstr "e"), true, [("x", JVal.jnum 1)]⟩⟩).jar =
      some (JStr.ofJson (JVal.jobj [])) ∧
    (initTransition true "/api/auth/sign-out"
        ⟨some JStr.malformed, none,
          ⟨some (JVal.jstr "d"), some (JVal.jstr "e"), true, [("x", JVal.jnum 1)]⟩⟩).sessionCache =
      some (JStr.ofJson (JVal.jobj [])) ∧
    (initTransition true "/api/auth/sign-out"
        ⟨some JStr.malformed, none,
          ⟨some (JVal.jstr "d"), some (JVal.jstr "e"), true, [("x", JVal.jnum 1)]⟩⟩).session.data =
      none ∧
    (initTransition true "/api/auth/sign-out"
        ⟨some JStr.malformed, none,
          ⟨some (JVal.jstr "d"), some (JVal.jstr "e"), true, [("x", JVal.jnum 1)]⟩⟩).session.error =
      none ∧
    (initTransition true "/api/auth/sign-out"
        ⟨some JStr.malformed, none,
          ⟨some (JVal.jstr "d"), some (JVal.jstr "e"), true, [("x", JVal.jnum 1)]⟩⟩).session.isPending =
      false ∧
    (initTransition true "/api/auth/sign-out"
        ⟨some JStr.malformed, none,
          ⟨some (JVal.jstr "d"), some (JVal.jstr "e"), true, [("x", JVal.jnum 1)]⟩⟩).session.extra =
      (⟨some JStr.malformed, none,
          ⟨some (JVal.jstr "d"), some (JVal.jstr "e"), true,
            [("x", JVal.jnum 1)]⟩⟩ : PluginState).session.extra :=
  claim_C7_ok "/api/auth/sign-out"
    ⟨some JStr.malformed, none,
      ⟨some (JVal.jstr "d"), some (JVal.jstr "e"), true, [("x", JVal.jnum 1)]⟩⟩
    (by decide)

/-- Claim C8, counterexample: with a max-age attribute present but equal
to 0 and an expires attribute of 777, getSetCookie stores the expires
attribute date, not now plus max-age seconds (max-age is tested for
truthiness, so 0 falls through). -/
theorem claim_C8_counterexample :
    getSetCookie 1000 [⟨"a", "v", some 0, some 777⟩] none =
      JStr.ofJson (JVal.jobj [("a", JVal.jobj [("value", JVal.jstr "v"),
        ("expires", JVal.jstr (isoEncode 777))])]) ∧
      (777 : Int) ≠ 1000 + 0 * 1000 := by
  exact ⟨rfl, by decide⟩

/-- Claim C8 (amended): for every parsed response cookie, the stored
expiry is now plus max-age seconds whenever a max-age attribute is
present and nonzero (taking precedence over expires), otherwise the
expires attribute when present, otherwise null; a max-age of 0 is falsy
and falls through to the expires attribute. -/
theorem claim_C8_ok (now : Int) (c : RawCookie) :
    lookupKey c.name (jarFieldsOf (getSetCookie now [c] none)) =
      some (storedJVal c.value
        (match c.maxAge with
         | some m => if m = 0 then c.expiresAttr else some (now + m * 1000)
         | none => c.expiresAttr)) := by
  have h1 : jarFieldsOf (getSetCookie now [c] none) =
      [(c.name, storedJVal c.value (storedExpiry now c))] := rfl
  rw [h1]
  simp only [lookupKey_cons, storedExpiry_eq]
  simp

end BAC
